import Mathlib

set_option maxRecDepth 8000

/-!
# Verification of the SEC proxy-statement ownership-extraction pipeline

Shallow embedding of the extraction core of the `sec-ownership-scraper`
repository (files `scrape_proxy_holders.py`, `src/simple_scraper.py`,
`src/comprehensive_market_scraper.py`), together with theorems settling the
specification claims about it.

Modelling conventions:
* Python strings are Lean `String` / `List Char`; only the ASCII behaviour of
  `str.lower`, `str.upper`, `\w`, `\d`, `\s` is modelled, which covers every
  string the pipeline manipulates.
* Python `float` values coming out of the parsers are modelled as `ℚ`; every
  numeric literal involved ("8.5", "0.1", "50.0") is exactly representable.
* The regular expressions of the source are compiled by hand into small
  executable matchers whose search semantics (leftmost match, greedy
  quantifiers with backtracking) mirror Python's `re` on these patterns.
* `requests` responses are abstracted into an `Outcome` per attempt;
  `response.raise_for_status()` raises exactly for 4xx/5xx statuses.
-/

/-! ## Character classes (ASCII fragments of Python's `\s`, `\w`, `\d`) -/

/-- Python `\s` on ASCII: space, tab, newline, carriage return, vertical tab,
form feed. -/
def pyIsSpace (c : Char) : Bool :=
  c == ' ' || c == '\t' || c == '\n' || c == '\r' || c == '\x0b' || c == '\x0c'

/-- Python `\w` on ASCII: letters, digits, underscore. -/
def isWordChar (c : Char) : Bool :=
  c.isAlphanum || c == '_'

/-- Python `str.lower()` on ASCII, at the character-list level (kept off
`String.toLower` so that concrete evaluation reduces in the kernel). -/
def lowerChars (l : List Char) : List Char := l.map Char.toLower

/-! ## Whitespace collapsing: `re.sub(r"\s+", " ", name).strip()`
(`clean_holder_name`, `process_ownership_table` in `scrape_proxy_holders.py`) -/

/-- `re.sub(r"\s+", " ", ·)` on a character list: every maximal run of
whitespace becomes a single `' '`. -/
def squeezeWS : List Char → List Char
  | [] => []
  | [c] => if pyIsSpace c then [' '] else [c]
  | c :: d :: rest =>
    if pyIsSpace c then
      if pyIsSpace d then squeezeWS (d :: rest)
      else ' ' :: squeezeWS (d :: rest)
    else c :: squeezeWS (d :: rest)

/-- Python `str.lstrip()` (whitespace). -/
def lstripWS (l : List Char) : List Char := l.dropWhile pyIsSpace

/-- Python `str.rstrip()` (whitespace). -/
def rstripWS (l : List Char) : List Char := (l.reverse.dropWhile pyIsSpace).reverse

/-- Python `str.strip()` (whitespace). -/
def stripWS (l : List Char) : List Char := rstripWS (lstripWS l)

/-- `re.sub(r"\s+", " ", s).strip()` — the whitespace normalisation used on
holder names and table headers. -/
def collapseWS (s : String) : String := ⟨stripWS (squeezeWS s.data)⟩

/-! ## A tiny regex-token machine

Each regular expression of the source is compiled into a list of tokens:
literal runs, a single optional character (`,?`, `\.?`), `\s+` and `\s*`.
`toksMatchLen` is a backtracking matcher returning the length of the match
produced by Python's greedy semantics; the fuel argument only bounds recursion
depth and is always instantiated large enough (each step consumes a character
or a token, so `chars + tokens + 1` suffices). -/

inductive Tok
  | lit (s : List Char)
  | opt (c : Char)
  | ws1
  | ws0
deriving DecidableEq

/-- Greedy backtracking matcher: does `toks` match a prefix of `l`, and if so
how many characters does the (Python-greedy) match consume? -/
def toksMatchLen : Nat → List Tok → List Char → Option Nat
  | 0, _, _ => none
  | _ + 1, [], _ => some 0
  | fuel + 1, Tok.lit s :: ts, l =>
    if s.isPrefixOf l then (toksMatchLen fuel ts (l.drop s.length)).map (· + s.length)
    else none
  | fuel + 1, Tok.opt c :: ts, l =>
    match l with
    | [] => toksMatchLen fuel ts []
    | c' :: rest =>
      if c' = c then
        match toksMatchLen fuel ts rest with
        | some n => some (n + 1)
        | none => toksMatchLen fuel ts (c' :: rest)
      else toksMatchLen fuel ts (c' :: rest)
  | fuel + 1, Tok.ws1 :: ts, l =>
    match l with
    | [] => none
    | c :: rest =>
      if pyIsSpace c then (toksMatchLen fuel (Tok.ws0 :: ts) rest).map (· + 1) else none
  | fuel + 1, Tok.ws0 :: ts, l =>
    match l with
    | [] => toksMatchLen fuel ts []
    | c :: rest =>
      if pyIsSpace c then
        match toksMatchLen fuel (Tok.ws0 :: ts) rest with
        | some n => some (n + 1)
        | none => toksMatchLen fuel ts (c :: rest)
      else toksMatchLen fuel ts (c :: rest)

/-- Sufficient fuel for `toksMatchLen` on haystack `l`. -/
def matchFuel (toks : List Tok) (l : List Char) : Nat := l.length + toks.length + 1

/-- `re.search` giving the span `(start, end)` of the leftmost match,
as used by `re.finditer(...)[0]` in the pattern-based extractors. -/
def firstMatchSpanAux (toks : List Tok) : List Char → Nat → Option (Nat × Nat)
  | [], i =>
    match toksMatchLen (matchFuel toks []) toks [] with
    | some n => some (i, i + n)
    | none => none
  | c :: rest, i =>
    match toksMatchLen (matchFuel toks (c :: rest)) toks (c :: rest) with
    | some n => some (i, i + n)
    | none => firstMatchSpanAux toks rest (i + 1)

def firstMatchSpan (toks : List Tok) (l : List Char) : Option (Nat × Nat) :=
  firstMatchSpanAux toks l 0

/-- `re.search` of a pattern anchored by a leading `\b` (word boundary):
the match may start at position 0 or after a non-word character.
Used by the alias rules of `clean_holder_name`. -/
def searchWBAux (toks : List Tok) : Bool → List Char → Bool
  | prevOk, [] => prevOk && (toksMatchLen (matchFuel toks []) toks []).isSome
  | prevOk, c :: rest =>
    (prevOk && (toksMatchLen (matchFuel toks (c :: rest)) toks (c :: rest)).isSome)
      || searchWBAux toks (!isWordChar c) rest

def searchWB (toks : List Tok) (l : List Char) : Bool := searchWBAux toks true l

/-! ## Holder-name canonicalisation (`clean_holder_name`) -/

/-- Alias patterns, compiled from the regexes of `clean_holder_name`
(the trailing `.*` of the source patterns always matches and is dropped;
the optional non-greedy group of the Fidelity pattern can match empty, so the
search succeeds exactly when `\bfidelity` occurs). -/
def vanguardToks : List Tok := [Tok.lit "the vanguard group".data]
def blackrockToks : List Tok := [Tok.lit "blackrock".data, Tok.opt ',', Tok.lit " inc".data]
def stateStreetToks : List Tok := [Tok.lit "state street".data]
def fidelityToks : List Tok := [Tok.lit "fidelity".data]
def troweToks : List Tok := [Tok.lit "t".data, Tok.opt '.', Tok.lit " rowe price".data]
def berkshireToks : List Tok := [Tok.lit "berkshire hathaway".data]

/-- The ordered alias dictionary of `clean_holder_name`: first matching rule
wins, evaluated against the lowercased, whitespace-collapsed name. -/
def aliasLookup (low : List Char) : Option String :=
  if searchWB vanguardToks low then some "Vanguard Group"
  else if searchWB blackrockToks low then some "BlackRock"
  else if searchWB stateStreetToks low then some "State Street"
  else if searchWB fidelityToks low then some "Fidelity"
  else if searchWB troweToks low then some "T. Rowe Price"
  else if searchWB berkshireToks low then some "Berkshire Hathaway"
  else none

/-- `clean_holder_name` from `scrape_proxy_holders.py`. -/
def clean_holder_name (name : String) : String :=
  let n := collapseWS name
  match aliasLookup (lowerChars n.data) with
  | some repl => repl
  | none => n

/-! ## Numeric parsing -/

def digitsToNat (ds : List Char) : Nat :=
  ds.foldl (fun a c => a * 10 + (c.toNat - 48)) 0

/-- Value of a decimal literal with integer digits `D` and fraction digits
`F` (the Python `float` of `"D.F"`). -/
def decimalToQ (D F : List Char) : ℚ :=
  (digitsToNat D : ℚ) + (digitsToNat F : ℚ) / 10 ^ F.length

/-- Python `float(s)` on the decimal fragment of its grammar: optional
whitespace and sign, `digits[.digits]` or `.digits`, optional exponent.
(`inf`/`nan`/underscored literals are outside the behaviour this pipeline
ever feeds it and are not modelled.) -/
def pyFloatCore (l : List Char) : Option ℚ :=
  let (sign, l1) : ℚ × List Char :=
    match l with
    | '+' :: t => (1, t)
    | '-' :: t => (-1, t)
    | _ => (1, l)
  let D := l1.takeWhile Char.isDigit
  let rest := l1.drop D.length
  let (ok, v, rest2) : Bool × ℚ × List Char :=
    match rest with
    | '.' :: r2 =>
      let F := r2.takeWhile Char.isDigit
      (!(D.isEmpty && F.isEmpty), decimalToQ D F, r2.drop F.length)
    | r2 => (!D.isEmpty, decimalToQ D [], r2)
  if !ok then none
  else
    match rest2 with
    | [] => some (sign * v)
    | e :: r3 =>
      if e = 'e' || e = 'E' then
        let (esign, r4) : Int × List Char :=
          match r3 with
          | '+' :: t => (1, t)
          | '-' :: t => (-1, t)
          | _ => (1, r3)
        let E := r4.takeWhile Char.isDigit
        if E.isEmpty || !(r4.drop E.length).isEmpty then none
        else some (sign * v * (10 : ℚ) ^ (esign * digitsToNat E))
      else none

def pyFloat (s : String) : Option ℚ := pyFloatCore (stripWS s.data)

/-- `int(re.sub(r"[^\d]", "", str(x)))` guarded by `s.isdigit()` — the
share-count cell parser `to_int` inside `process_ownership_table`. -/
def to_int (s : String) : Option Nat :=
  let ds := s.data.filter Char.isDigit
  if ds.isEmpty then none else some (digitsToNat ds)

/-! ## Percentage extraction -/

/-- `\s*%` — skip whitespace, require a percent sign. -/
def wsPercent (l : List Char) : Bool :=
  match l.dropWhile pyIsSpace with
  | '%' :: _ => true
  | _ => false

/-- Match of `(\d{maxInt?}\.?\d*)\s*%` starting at this position
(`maxInt = none` models `\d+`, `some m` models `\d{1,m}`), returning the
parsed group.  Python's backtracking collapses to: the group is the maximal
leading digit run, extended by `.digits` exactly when the whole run fits
inside the bounded quantifier (otherwise `\d*` has already consumed the
digits in front of the dot and the dot cannot be matched). -/
def percentAt (maxInt : Option Nat) (l : List Char) : Option ℚ :=
  let D := l.takeWhile Char.isDigit
  if D.isEmpty then none
  else
    let rest := l.drop D.length
    let allowDot := match maxInt with | none => true | some m => D.length ≤ m
    match rest with
    | '.' :: r2 =>
      if allowDot then
        let F := r2.takeWhile Char.isDigit
        if wsPercent (r2.drop F.length) then some (decimalToQ D F) else none
      else none
    | r2 => if wsPercent r2 then some (decimalToQ D []) else none

/-- `re.search` for the percent patterns: leftmost position wins. -/
def percentSearch (maxInt : Option Nat) : List Char → Option ℚ
  | [] => none
  | c :: rest =>
    match percentAt maxInt (c :: rest) with
    | some q => some q
    | none => percentSearch maxInt rest

/-- Match of `([0-9]+(?:\.[0-9]+)?)\s*%` at this position (the table-cell
variant: the fraction group requires at least one digit). -/
def tablePercentAt (l : List Char) : Option ℚ :=
  let D := l.takeWhile Char.isDigit
  if D.isEmpty then none
  else
    let rest := l.drop D.length
    match rest with
    | '.' :: r2 =>
      let F := r2.takeWhile Char.isDigit
      if !F.isEmpty && wsPercent (r2.drop F.length) then some (decimalToQ D F) else none
    | r2 => if wsPercent r2 then some (decimalToQ D []) else none

def tablePercentSearch : List Char → Option ℚ
  | [] => none
  | c :: rest =>
    match tablePercentAt (c :: rest) with
    | some q => some q
    | none => tablePercentSearch rest

/-- `extract_percent` from `scrape_proxy_holders.py`: first
`<number>%` pattern in the cell, else `float(cell)`, else null.
(The `pd.isna` guard never fires on the string cells modelled here.) -/
def extract_percent (s : String) : Option ℚ :=
  match tablePercentSearch s.data with
  | some q => some q
  | none => pyFloat s

/-! ## Share-count extraction: `(\d{1,3}(?:,\d{3}){1,maxG})` -/

/-- Exactly `n` leading digits. -/
def takeDigitsN : Nat → List Char → Option (List Char × List Char)
  | 0, l => some ([], l)
  | n + 1, c :: rest =>
    if c.isDigit then (takeDigitsN n rest).map (fun p => (c :: p.1, p.2)) else none
  | _ + 1, [] => none

/-- One `,\d{3}` group. -/
def grpTake (l : List Char) : Option (List Char × List Char) :=
  match l with
  | ',' :: a :: b :: c :: rest =>
    if a.isDigit && b.isDigit && c.isDigit then some ([a, b, c], rest) else none
  | _ => none

/-- Greedily consume up to `n` further `,\d{3}` groups. -/
def grpsTake : Nat → List Char → List Char
  | 0, _ => []
  | n + 1, l =>
    match grpTake l with
    | some (ds, rest) => ds ++ grpsTake n rest
    | none => []

/-- The digit content of a match of `\d{1,3}(?:,\d{3}){1,maxG}` at this
position with `\d{1,3}` fixed to `d` digits. -/
def sharesAtD (maxG d : Nat) (l : List Char) : Option (List Char) :=
  match takeDigitsN d l with
  | some (ds, rest) =>
    match grpTake rest with
    | some (g1, r1) => some (ds ++ g1 ++ grpsTake (maxG - 1) r1)
    | none => none
  | none => none

/-- Greedy alternation over the bounded quantifier: 3 digits preferred. -/
def sharesAt (maxG : Nat) (l : List Char) : Option (List Char) :=
  match sharesAtD maxG 3 l with
  | some r => some r
  | none =>
    match sharesAtD maxG 2 l with
    | some r => some r
    | none => sharesAtD maxG 1 l

/-- `re.search` for the shares pattern; returns
`int(match.group(1).replace(',', ''))`. -/
def sharesSearch (maxG : Nat) : List Char → Option Nat
  | [] => none
  | c :: rest =>
    match sharesAt maxG (c :: rest) with
    | some ds => some (digitsToNat ds)
    | none => sharesSearch maxG rest

/-! ## Content-type sniffing (`detect_content_type`) -/

/-- Substring containment on character lists (`pattern in haystack`). -/
def listContains (pat : List Char) : List Char → Bool
  | [] => pat.isEmpty
  | c :: rest => pat.isPrefixOf (c :: rest) || listContains pat rest

/-- `[a-zA-Z]*>` — the tail of a closing tag: letters, then `>`. -/
def tagClose : List Char → Bool
  | [] => false
  | c :: rest => if c = '>' then true else (c.isAlpha && tagClose rest)

/-- A match of `</[a-zA-Z]+>` starting at this position. -/
def closingTagAt : List Char → Bool
  | a :: b :: c :: rest => a == '<' && b == '/' && c.isAlpha && tagClose rest
  | _ => false

/-- `re.search(r"</[a-zA-Z]+>", ·)`. -/
def hasClosingTagB : List Char → Bool
  | [] => false
  | c :: rest => closingTagAt (c :: rest) || hasClosingTagB rest

/-- `detect_content_type` from `scrape_proxy_holders.py`: the first regex is
searched case-insensitively (modelled on the lowercased content), the second
case-sensitively. -/
def detect_content_type (content : String) : String :=
  if listContains "<!doctype html".data (lowerChars content.data)
      || listContains "</html>".data (lowerChars content.data) then "html"
  else if listContains "<?xml".data content.data || hasClosingTagB content.data then "xml"
  else "text"

/-! ## Column detection and table processing
(`detect_ownership_columns`, `process_ownership_table`) -/

structure ColMap where
  name : Option Nat
  percent : Option Nat
  shares : Option Nat
deriving DecidableEq

/-- Python's `not col_mapping.get(key)`: true when the key is absent **or**
the stored column index is the falsy integer `0`. -/
def pyUnassigned : Option Nat → Bool
  | none => true
  | some k => k == 0

def anyKeyword (ks : List String) (t : List Char) : Bool :=
  ks.any fun k => listContains k.data t

def nameKeywords : List String := ["name", "beneficial", "holder", "shareholder"]
def percentKeywords : List String := ["%", "percent", "percentage"]
def sharesKeywords : List String := ["share", "security", "amount", "number"]

def detectColsAux : List String → Nat → ColMap → ColMap
  | [], _, m => m
  | col :: cols, i, m =>
    let t := lowerChars col.data
    let m1 := if pyUnassigned m.name && anyKeyword nameKeywords t then
        { m with name := some i } else m
    let m2 := if pyUnassigned m1.percent && anyKeyword percentKeywords t then
        { m1 with percent := some i } else m1
    let m3 := if pyUnassigned m2.shares && anyKeyword sharesKeywords t then
        { m2 with shares := some i } else m2
    detectColsAux cols (i + 1) m3

/-- `detect_ownership_columns` from `scrape_proxy_holders.py`, acting on the
header row of the table. -/
def detect_ownership_columns (header : List String) : ColMap :=
  detectColsAux header 0 ⟨none, none, none⟩

/-- A parsed tabular structure as `pd.read_html` delivers it: a header row of
column labels and the data rows. -/
structure PyTable where
  header : List String
  rows : List (List String)

/-- One output row of `process_ownership_table`. -/
structure OwnRow where
  holder_raw : String
  holder : String
  percent_class : Option ℚ
  shares : Option Nat
deriving DecidableEq

/-- `process_ownership_table` from `scrape_proxy_holders.py`: normalise the
header, detect columns, build holder/percent/shares per row, drop rows whose
canonical holder contains "total" (case-insensitive) or has length ≤ 1. -/
def process_ownership_table (t : PyTable) : List OwnRow :=
  let header := t.header.map collapseWS
  let cm := detect_ownership_columns header
  let nameIdx := match cm.name with | some j => j | none => 0
  let out := t.rows.map fun r =>
    let raw := r.getD nameIdx ""
    { holder_raw := raw
      holder := clean_holder_name raw
      percent_class := match cm.percent with
        | some j => extract_percent (r.getD j "")
        | none => none
      shares := match cm.shares with
        | some j => to_int (r.getD j "")
        | none => none : OwnRow }
  (out.filter fun r => !listContains "total".data (lowerChars r.holder.data)).filter
    fun r => r.holder.length > 1

/-! ## Filing locator (`find_latest_def14a`, `_get_latest_filing_url_fast`)

The `filings.recent` object of a submissions document: parallel arrays of
form type, filing date, accession number and primary document (the spec's
external-interface contract has them all the same length; list accesses are
modelled with the `""` default the source itself uses for a short
`primaryDocument` array). -/

structure Recent where
  form : List String
  filingDate : List String
  accessionNumber : List String
  primaryDocument : List String

/-- Python `str(form).strip().upper()` (ASCII upper). -/
def pyStripUpper (s : String) : String := ⟨(stripWS s.data).map Char.toUpper⟩

/-- Membership test `in ["DEF 14A", "DEF 14"]` of `find_latest_def14a`. -/
def isProxyForm (s : String) : Bool :=
  pyStripUpper s == "DEF 14A" || pyStripUpper s == "DEF 14"

/-- Python `.replace("-", "")`. -/
def dropDashes (s : String) : String := ⟨s.data.filter (· ≠ '-')⟩

/-- Lexicographic (code-point) comparison of character lists: Python's `<`
on strings.  (Kept executable; it agrees with the mathematical list order,
see `charListLt_iff`.) -/
def charListLt : List Char → List Char → Bool
  | [], [] => false
  | [], _ :: _ => true
  | _ :: _, [] => false
  | a :: as, b :: bs => if a < b then true else if b < a then false else charListLt as bs

/-- Python string comparison `a < b` (`d > latest_date` in the source). -/
def pyStrLt (a b : String) : Bool := charListLt a.data b.data

/-- The scanning loop of `find_latest_def14a`: walk the form list, remembering
index and date of the best proxy entry so far (`d > latest_date` update). -/
def scanLatest (dates : List String) : List String → Nat → Option (Nat × String) →
    Option (Nat × String)
  | [], _, acc => acc
  | f :: fs, i, acc =>
    scanLatest dates fs (i + 1)
      (if isProxyForm f then
        match acc with
        | none => some (i, dates.getD i "")
        | some (j, ld) =>
          if pyStrLt ld (dates.getD i "") then some (i, dates.getD i "") else some (j, ld)
      else acc)

/-- `find_latest_def14a` from `scrape_proxy_holders.py`: returns
`(filing_date, accession_without_dashes, primary_document)`. -/
def find_latest_def14a (r : Recent) : Option (String × String × String) :=
  match scanLatest r.filingDate r.form 0 none with
  | none => none
  | some (i, d) =>
    some (d, dropDashes (r.accessionNumber.getD i ""), r.primaryDocument.getD i "")

/-- The spec's `latestProxyFiling`: `find_latest_def14a` composed with the
caller's guard in `fetch_ownership_for_sp500` (`if not found: continue`,
`if not primary_doc: continue`). -/
def latestProxyFiling (r : Recent) : Option (String × String × String) :=
  match find_latest_def14a r with
  | none => none
  | some (d, a, p) => if p = "" then none else some (d, a, p)

/-- Python `int(·)` on a decimal digit string (the zero-padded CIK). -/
def pyIntOfDigits (s : String) : Nat := digitsToNat s.data

/-- The scanning loop of `_get_latest_filing_url_fast`
(`src/comprehensive_market_scraper.py`): return the URL of the **first**
entry in array order whose form is `DEF 14A` and whose primary document is
non-empty. -/
def fastLocAux (cik : String) (r : Recent) : List String → Nat → Option String
  | [], _ => none
  | f :: fs, i =>
    if pyStripUpper f == "DEF 14A" then
      let accNo := dropDashes (r.accessionNumber.getD i "")
      let pdoc := r.primaryDocument.getD i ""
      if pdoc ≠ "" then
        some ("https://www.sec.gov/Archives/edgar/data/" ++ toString (pyIntOfDigits cik)
          ++ "/" ++ accNo ++ "/" ++ pdoc)
      else fastLocAux cik r fs (i + 1)
    else fastLocAux cik r fs (i + 1)

def getLatestFilingUrlFast (cik : String) (r : Recent) : Option String :=
  fastLocAux cik r r.form 0

/-! ## HTTP fetch layer (`get_response`, `get_json`)

One `Outcome` per attempt index models what `requests.get` does on that
attempt: a transport error, or a response with a status code and body.
`response.raise_for_status()` raises exactly for statuses in `[400, 600)`.
The returned `List ℚ` is the log of `time.sleep` durations, in order.
Exhausted retries re-raise the last `RequestException` (`FetchErr.network`);
`get_json`'s `json.JSONDecodeError` handler raises `ValueError`
(`FetchErr.parse`). -/

inductive Outcome
  | err
  | resp (status : Nat) (body : String)

inductive FetchErr
  | network
  | parse
deriving DecidableEq

/-- An attempt that `get_response` treats as a failure: a transport error, or
a response `raise_for_status` raises on (4xx/5xx). -/
def attemptFails (o : Outcome) : Prop :=
  match o with
  | Outcome.err => True
  | Outcome.resp s _ => 400 ≤ s ∧ s < 600

/-- The loop body of `get_response`: attempt `i` with `remaining = retries - i`
retries left.  On failure with retries left, sleep `backoff * 2 ^ i` and
recurse; with none left, raise. -/
def run_fetch_aux (outcomes : Nat → Outcome) (backoff : ℚ) :
    Nat → Nat → Except FetchErr (Nat × String) × List ℚ
  | i, 0 =>
    match outcomes i with
    | Outcome.resp s b =>
      if 400 ≤ s ∧ s < 600 then (Except.error FetchErr.network, [])
      else (Except.ok (s, b), [])
    | Outcome.err => (Except.error FetchErr.network, [])
  | i, rem + 1 =>
    match outcomes i with
    | Outcome.resp s b =>
      if 400 ≤ s ∧ s < 600 then
        let p := run_fetch_aux outcomes backoff (i + 1) rem
        (p.1, backoff * 2 ^ i :: p.2)
      else (Except.ok (s, b), [])
    | Outcome.err =>
      let p := run_fetch_aux outcomes backoff (i + 1) rem
      (p.1, backoff * 2 ^ i :: p.2)

/-- `get_response(url, retries=retries, backoff=backoff)`:
`for i in range(retries + 1)` starting at attempt 0. -/
def run_fetch (outcomes : Nat → Outcome) (retries : Nat) (backoff : ℚ) :
    Except FetchErr (Nat × String) × List ℚ :=
  run_fetch_aux outcomes backoff 0 retries

/-- `get_json`: fetch, then `r.json()`, raising `ValueError` when the body is
not valid JSON.  JSON validity of a body is abstracted into the predicate
`jsonOk`. -/
def get_json_model (outcomes : Nat → Outcome) (jsonOk : String → Bool)
    (retries : Nat) (backoff : ℚ) : Except FetchErr (Nat × String) × List ℚ :=
  match run_fetch outcomes retries backoff with
  | (Except.ok (s, b), sl) =>
    (if jsonOk b then Except.ok (s, b) else Except.error FetchErr.parse, sl)
  | (Except.error e, sl) => (Except.error e, sl)

/-! ## Pattern-based institutional-holder extraction
(`_extract_holders_simple` in `src/simple_scraper.py`,
`_extract_institutional_holders_fast` in `src/comprehensive_market_scraper.py`) -/

/-- An emitted holder record of the pattern-based extractors.  The
`filing_date` field of the source is `datetime.now()` (wall-clock provenance,
not part of the extraction logic) and is not modelled. -/
structure Holder where
  ticker : String
  company_name : String
  holder_name : String
  shares : Option Nat
  percent_owned : Option ℚ
deriving DecidableEq

/-- Python truthiness of the extracted optional int (`if shares or percent`). -/
def truthyNat : Option Nat → Bool
  | none => false
  | some n => n != 0

/-- Python truthiness of the extracted optional float. -/
def truthyQ : Option ℚ → Bool
  | none => false
  | some q => q != 0

/-- `content[max(0, start - margin) : min(len(content), end + margin)]`. -/
def pySlice (l : List Char) (a b : Nat) : List Char := (l.drop a).take (b - a)

/-- The per-pattern body of `_extract_holders_simple`: find the first match in
the lowercased content, take a ±1000 character context window from the
original content, extract shares (`\d{1,3}(?:,\d{3}){1,3}`) and percent
(`(\d+\.?\d*)\s*%`), and emit a record iff one of them is truthy. -/
def tryPatternSimple (content lower : List Char) (ticker cname instName : String)
    (toks : List Tok) : Option Holder :=
  match firstMatchSpan toks lower with
  | none => none
  | some (s, e) =>
    let ctx := pySlice content (s - 1000) (min content.length (e + 1000))
    let shares := sharesSearch 3 ctx
    let percent := percentSearch none ctx
    if truthyNat shares || truthyQ percent then
      some { ticker := ticker, company_name := cname, holder_name := instName,
             shares := shares, percent_owned := percent }
    else none

/-- The per-pattern body of `_extract_institutional_holders_fast`: ±800
context, shares pattern `\d{1,3}(?:,\d{3}){1,4}` gated to `[1000, 10^10]`,
percent pattern `(\d{1,2}\.?\d*)\s*%` gated to `[0.1, 50.0]` (out-of-range
values are set to `None`), emit iff one survivor is truthy. -/
def tryPatternFast (content lower : List Char) (ticker cname instName : String)
    (toks : List Tok) : Option Holder :=
  match firstMatchSpan toks lower with
  | none => none
  | some (s, e) =>
    let ctx := pySlice content (s - 800) (min content.length (e + 800))
    let shares0 := sharesSearch 4 ctx
    let shares := match shares0 with
      | some n => if 1000 ≤ n ∧ n ≤ 10000000000 then some n else none
      | none => none
    let percent0 := percentSearch (some 2) ctx
    let percent := match percent0 with
      | some q => if 1 / 10 ≤ q ∧ q ≤ 50 then some q else none
      | none => none
    if truthyNat shares || truthyQ percent then
      some { ticker := ticker, company_name := cname, holder_name := instName,
             shares := shares, percent_owned := percent }
    else none

/-- `for pattern in patterns: ... break` — the first pattern that yields a
record wins; a pattern with no match (or no truthy data) falls through to the
next one. -/
def firstRecord (f : List Tok → Option Holder) : List (List Tok) → Option Holder
  | [] => none
  | toks :: rest =>
    match f toks with
    | some h => some h
    | none => firstRecord f rest

/-- The institution dictionary of `_extract_holders_simple`, with its regex
patterns compiled to token lists (insertion order preserved). -/
def institutionsSimple : List (String × List (List Tok)) :=
  [("Vanguard Group",
     [[Tok.lit "vanguard".data, Tok.ws1, Tok.lit "group".data],
      [Tok.lit "the".data, Tok.ws1, Tok.lit "vanguard".data, Tok.ws1, Tok.lit "group".data],
      [Tok.lit "vanguard".data, Tok.ws1, Tok.lit "fiduciary".data]]),
   ("BlackRock",
     [[Tok.lit "blackrock".data, Tok.opt ',', Tok.ws1, Tok.lit "inc".data],
      [Tok.lit "blackrock".data, Tok.ws1, Tok.lit "fund".data],
      [Tok.lit "blackrock".data, Tok.ws1, Tok.lit "institutional".data]]),
   ("State Street",
     [[Tok.lit "state".data, Tok.ws1, Tok.lit "street".data, Tok.ws1, Tok.lit "corp".data],
      [Tok.lit "state".data, Tok.ws1, Tok.lit "street".data, Tok.ws1, Tok.lit "corporation".data],
      [Tok.lit "state".data, Tok.ws1, Tok.lit "street".data, Tok.ws1, Tok.lit "global".data]]),
   ("Fidelity",
     [[Tok.lit "fidelity".data, Tok.ws1, Tok.lit "management".data],
      [Tok.lit "fmr".data, Tok.ws1, Tok.lit "llc".data],
      [Tok.lit "fidelity".data, Tok.ws1, Tok.lit "investments".data]]),
   ("T. Rowe Price",
     [[Tok.lit "t".data, Tok.opt '.', Tok.ws0, Tok.lit "rowe".data, Tok.ws1, Tok.lit "price".data],
      [Tok.lit "t.".data, Tok.ws0, Tok.lit "rowe".data, Tok.ws1, Tok.lit "price".data,
       Tok.ws1, Tok.lit "associates".data]]),
   ("Berkshire Hathaway",
     [[Tok.lit "berkshire".data, Tok.ws1, Tok.lit "hathaway".data]]),
   ("JPMorgan",
     [[Tok.lit "jpmorgan".data, Tok.ws1, Tok.lit "chase".data],
      [Tok.lit "jp".data, Tok.ws1, Tok.lit "morgan".data]]),
   ("Capital Group",
     [[Tok.lit "capital".data, Tok.ws1, Tok.lit "group".data],
      [Tok.lit "capital".data, Tok.ws1, Tok.lit "research".data]])]

/-- The institution dictionary of `_extract_institutional_holders_fast`. -/
def institutionsFast : List (String × List (List Tok)) :=
  [("Vanguard Group",
     [[Tok.lit "vanguard".data, Tok.ws1, Tok.lit "group".data],
      [Tok.lit "the".data, Tok.ws1, Tok.lit "vanguard".data, Tok.ws1, Tok.lit "group".data]]),
   ("BlackRock",
     [[Tok.lit "blackrock".data, Tok.opt ',', Tok.ws1, Tok.lit "inc".data],
      [Tok.lit "blackrock".data, Tok.ws1, Tok.lit "fund".data]]),
   ("State Street",
     [[Tok.lit "state".data, Tok.ws1, Tok.lit "street".data, Tok.ws1, Tok.lit "corp".data],
      [Tok.lit "state".data, Tok.ws1, Tok.lit "street".data, Tok.ws1, Tok.lit "corporation".data]]),
   ("Fidelity",
     [[Tok.lit "fidelity".data, Tok.ws1, Tok.lit "management".data],
      [Tok.lit "fmr".data, Tok.ws1, Tok.lit "llc".data]]),
   ("T. Rowe Price",
     [[Tok.lit "t".data, Tok.opt '.', Tok.ws0, Tok.lit "rowe".data, Tok.ws1, Tok.lit "price".data]]),
   ("Berkshire Hathaway",
     [[Tok.lit "berkshire".data, Tok.ws1, Tok.lit "hathaway".data]]),
   ("JPMorgan",
     [[Tok.lit "jpmorgan".data, Tok.ws1, Tok.lit "chase".data],
      [Tok.lit "jp".data, Tok.ws1, Tok.lit "morgan".data]]),
   ("Capital Group",
     [[Tok.lit "capital".data, Tok.ws1, Tok.lit "group".data],
      [Tok.lit "capital".data, Tok.ws1, Tok.lit "research".data]]),
   ("Wellington Management",
     [[Tok.lit "wellington".data, Tok.ws1, Tok.lit "management".data]]),
   ("Invesco",
     [[Tok.lit "invesco".data, Tok.ws1, Tok.lit "ltd".data]]),
   ("Northern Trust",
     [[Tok.lit "northern".data, Tok.ws1, Tok.lit "trust".data]]),
   ("Bank of New York Mellon",
     [[Tok.lit "bank".data, Tok.ws1, Tok.lit "of".data, Tok.ws1, Tok.lit "new".data,
       Tok.ws1, Tok.lit "york".data, Tok.ws1, Tok.lit "mellon".data],
      [Tok.lit "bny".data, Tok.ws1, Tok.lit "mellon".data]]),
   ("Goldman Sachs Asset Management",
     [[Tok.lit "goldman".data, Tok.ws1, Tok.lit "sachs".data, Tok.ws1, Tok.lit "asset".data],
      [Tok.lit "gsam".data]]),
   ("Morgan Stanley Investment Management",
     [[Tok.lit "morgan".data, Tok.ws1, Tok.lit "stanley".data, Tok.ws1, Tok.lit "investment".data]]),
   ("Dimensional Fund Advisors",
     [[Tok.lit "dimensional".data, Tok.ws1, Tok.lit "fund".data]])]

/-- `_extract_holders_simple(content, ticker, company_name)`. -/
def extract_holders_simple (content ticker cname : String) : List Holder :=
  let lower := lowerChars content.data
  institutionsSimple.filterMap fun inst =>
    firstRecord (tryPatternSimple content.data lower ticker cname inst.1) inst.2

/-- `_extract_institutional_holders_fast(content, ticker, company_name)`. -/
def extract_inst_fast (content ticker cname : String) : List Holder :=
  let lower := lowerChars content.data
  institutionsFast.filterMap fun inst =>
    firstRecord (tryPatternFast content.data lower ticker cname inst.1) inst.2

/-! ## Final percent validation of the table pipeline
(`fetch_ownership_for_sp500`, lines 472–475):
`combined["percent_class"].apply(lambda x: x if (pd.notna(x) and 0 <= x <= 100) else None)` -/

def validate_percent_col (col : List (Option ℚ)) : List (Option ℚ) :=
  col.map fun x =>
    match x with
    | none => none
    | some v => if 0 ≤ v ∧ v ≤ 100 then some v else none

/-! ## Declarative (spec-side) predicates for the content-type sniffer -/

/-- `pat` occurs as a contiguous subsequence of `l`. -/
def ContainsSeq (pat l : List Char) : Prop := ∃ u v, l = u ++ pat ++ v

/-- The content contains an HTML doctype or a closing `</html>` tag,
matched case-insensitively. -/
def HtmlMark (content : String) : Prop :=
  ContainsSeq "<!doctype html".data (lowerChars content.data)
    ∨ ContainsSeq "</html>".data (lowerChars content.data)

/-- The content contains a closing-tag pattern `</letters+>`. -/
def HasClosingTag (l : List Char) : Prop :=
  ∃ u w v, w ≠ [] ∧ (∀ c ∈ w, c.isAlpha = true) ∧ l = u ++ '<' :: '/' :: (w ++ '>' :: v)

/-- The content contains an XML processing instruction or any closing tag
(case-sensitive, as in the source). -/
def XmlMark (content : String) : Prop :=
  ContainsSeq "<?xml".data content.data ∨ HasClosingTag content.data

/-! ## Concrete fixtures used by witnesses and counterexamples -/

/-- The two-row beneficial-ownership table of the spec's scenario. -/
def scenarioTable : PyTable :=
  { header := ["Name of Beneficial Owner", "Shares", "Percent of Class"]
    rows := [["The Vanguard Group, Inc.", "1,234,567", "8.5%"],
             ["Total", "1,234,567", "8.5%"]] }

/-- A table whose numeric cells are non-numeric text: the name column parses,
both value columns parse to null. -/
def bothNullTable : PyTable :=
  { header := ["Name of Beneficial Owner", "Shares", "Percent of Class"]
    rows := [["John Smith", "n/a", "n/a"]] }

/-- The record the simple extractor emits on `"vanguard group 5%"`. -/
def vanguardFivePct : Holder :=
  { ticker := "T", company_name := "C", holder_name := "Vanguard Group",
    shares := none, percent_owned := some 5 }

/-- The record the simple extractor emits on `"vanguard group 250%"`. -/
def vanguard250Pct : Holder :=
  { ticker := "T", company_name := "C", holder_name := "Vanguard Group",
    shares := none, percent_owned := some 250 }

/-- The record the comprehensive extractor emits on `"fmr llc 1,000 2%"`. -/
def fmrHolder : Holder :=
  { ticker := "T", company_name := "C", holder_name := "Fidelity",
    shares := some 1000, percent_owned := some 2 }

/-- A submissions document with two `DEF 14A` filings, the older one listed
first (the order the claim quantifies over). -/
def twoFilingsOldFirst : Recent :=
  { form := ["DEF 14A", "DEF 14A"]
    filingDate := ["2023-01-01", "2024-06-15"]
    accessionNumber := ["0001-23", "0002-24"]
    primaryDocument := ["a.htm", "b.htm"] }

/-! ## Normal-form predicates for whitespace-collapsed strings -/

/-- No two adjacent whitespace characters. -/
def NoWSRun (l : List Char) : Prop :=
  List.Chain' (fun a b => ¬(pyIsSpace a = true ∧ pyIsSpace b = true)) l

/-- Every whitespace character is a plain space. -/
def AllWSSpace (l : List Char) : Prop :=
  ∀ c ∈ l, pyIsSpace c = true → c = ' '

/-! # Theorems

First the supporting lemmas, then one theorem per claim (witnesses and
counterexamples alongside). -/

theorem squeezeWS_cons_nonspace (d : Char) (rest : List Char) (h : ¬pyIsSpace d = true) :
    squeezeWS (d :: rest) = d :: squeezeWS rest := by
  cases rest with
  | nil => simp [squeezeWS, h]
  | cons e r => simp [squeezeWS, h]

theorem squeezeWS_noRun (l : List Char) : NoWSRun (squeezeWS l) := by
  induction l with
  | nil => simp [squeezeWS, NoWSRun]
  | cons c rest ih =>
    cases rest with
    | nil =>
      by_cases hc : pyIsSpace c = true <;> simp [squeezeWS, hc, NoWSRun]
    | cons d r =>
      by_cases hc : pyIsSpace c = true
      · by_cases hd : pyIsSpace d = true
        · simpa [squeezeWS, hc, hd] using ih
        · rw [show squeezeWS (c :: d :: r) = ' ' :: squeezeWS (d :: r) by
            simp [squeezeWS, hc, hd]]
          rw [squeezeWS_cons_nonspace d r hd] at ih ⊢
          exact List.chain'_cons.mpr ⟨by simp [hd], ih⟩
      · rw [show squeezeWS (c :: d :: r) = c :: squeezeWS (d :: r) by
          simp [squeezeWS, hc]]
        exact List.chain'_cons'.mpr ⟨fun b _ => by simp [hc], ih⟩

theorem squeezeWS_allWS (l : List Char) : AllWSSpace (squeezeWS l) := by
  induction l with
  | nil => simp [squeezeWS, AllWSSpace]
  | cons c rest ih =>
    cases rest with
    | nil =>
      by_cases hc : pyIsSpace c = true
      · simp [squeezeWS, hc, AllWSSpace]
      · intro x hx hxs
        simp [squeezeWS, hc] at hx
        subst hx
        exact absurd hxs hc
    | cons d r =>
      by_cases hc : pyIsSpace c = true
      · by_cases hd : pyIsSpace d = true
        · simpa [squeezeWS, hc, hd] using ih
        · rw [show squeezeWS (c :: d :: r) = ' ' :: squeezeWS (d :: r) by
            simp [squeezeWS, hc, hd]]
          intro x hx hxs
          rcases List.mem_cons.mp hx with hx | hx
          · exact hx
          · exact ih x hx hxs
      · rw [show squeezeWS (c :: d :: r) = c :: squeezeWS (d :: r) by
          simp [squeezeWS, hc]]
        intro x hx hxs
        rcases List.mem_cons.mp hx with hx | hx
        · subst hx
          exact absurd hxs hc
        · exact ih x hx hxs

theorem squeezeWS_eq_self (l : List Char) (h1 : NoWSRun l) (h2 : AllWSSpace l) :
    squeezeWS l = l := by
  induction l with
  | nil => rfl
  | cons c rest ih =>
    cases rest with
    | nil =>
      by_cases hc : pyIsSpace c = true
      · have : c = ' ' := h2 c (by simp) hc
        simp [squeezeWS, hc, this]
      · simp [squeezeWS, hc]
    | cons d r =>
      by_cases hc : pyIsSpace c = true
      · have hd : ¬pyIsSpace d = true := by
          have := List.chain'_cons.mp h1
          intro hd
          exact this.1 ⟨hc, hd⟩
        have hceq : c = ' ' := h2 c (by simp) hc
        have ihr := ih (List.Chain'.tail h1) (fun x hx hxs => h2 x (by simp [hx]) hxs)
        simp [squeezeWS, hc, hd, hceq, ihr]
      · have ihr := ih (List.Chain'.tail h1) (fun x hx hxs => h2 x (by simp [hx]) hxs)
        simp [squeezeWS, hc, ihr]

theorem noRun_dropWhile (p : Char → Bool) (l : List Char) (h : NoWSRun l) :
    NoWSRun (l.dropWhile p) := by
  induction l with
  | nil => exact h
  | cons c rest ih =>
    by_cases hc : p c = true
    · simpa [List.dropWhile_cons, hc] using ih (List.Chain'.tail h)
    · simpa [List.dropWhile_cons, hc] using h

theorem mem_of_mem_dropWhile (p : Char → Bool) (l : List Char) (x : Char)
    (h : x ∈ l.dropWhile p) : x ∈ l := by
  induction l with
  | nil => simp at h
  | cons c rest ih =>
    by_cases hc : p c = true
    · simp [List.dropWhile_cons, hc] at h
      exact List.mem_cons.mpr (Or.inr (ih h))
    · simpa [List.dropWhile_cons, hc] using h

theorem noRun_reverse (l : List Char) (h : NoWSRun l) : NoWSRun l.reverse := by
  unfold NoWSRun at h ⊢
  rw [List.chain'_reverse]
  exact List.Chain'.imp (fun a b hab => by
    intro hba
    exact hab ⟨hba.2, hba.1⟩) h

theorem dropWhile_head_false (p : Char → Bool) (l : List Char) (c : Char) (t : List Char)
    (h : l.dropWhile p = c :: t) : p c = false := by
  induction l with
  | nil => simp at h
  | cons a rest ih =>
    by_cases ha : p a = true
    · exact ih (by simpa [List.dropWhile_cons, ha] using h)
    · simp [List.dropWhile_cons, ha] at h
      rw [← h.1]
      simpa using ha

theorem dropWhile_length_le (p : Char → Bool) (l : List Char) :
    (l.dropWhile p).length ≤ l.length := by
  induction l with
  | nil => simp
  | cons c rest ih =>
    by_cases hc : p c = true
    · simp only [List.dropWhile_cons, if_pos hc]
      exact Nat.le_succ_of_le ih
    · simp [List.dropWhile_cons, hc]

theorem dropWhile_cons_self (p : Char → Bool) (c : Char) (t : List Char)
    (h : (c :: t).dropWhile p = c :: t) : p c = false := by
  by_cases hc : p c = true
  · exfalso
    have hlen : (t.dropWhile p).length ≤ t.length := dropWhile_length_le p t
    rw [List.dropWhile_cons, if_pos hc] at h
    have : (t.dropWhile p).length = t.length + 1 := by rw [h]; simp
    omega
  · simpa using hc

theorem dropWhile_idem (p : Char → Bool) (l : List Char) :
    (l.dropWhile p).dropWhile p = l.dropWhile p := by
  cases h : l.dropWhile p with
  | nil => rfl
  | cons c t =>
    have := dropWhile_head_false p l c t h
    simp [List.dropWhile_cons, this]

theorem dropWhile_append_exists (p : Char → Bool) (l : List Char) :
    ∃ t, l = t ++ l.dropWhile p := by
  induction l with
  | nil => exact ⟨[], rfl⟩
  | cons c rest ih =>
    by_cases hc : p c = true
    · obtain ⟨t, ht⟩ := ih
      exact ⟨c :: t, by simpa [List.dropWhile_cons, hc] using congrArg (c :: ·) ht⟩
    · exact ⟨[], by simp [List.dropWhile_cons, hc]⟩

theorem rstripWS_idem (l : List Char) : rstripWS (rstripWS l) = rstripWS l := by
  unfold rstripWS
  rw [List.reverse_reverse, dropWhile_idem]

theorem rstripWS_isPrefix (l : List Char) : ∃ t, l = rstripWS l ++ t := by
  obtain ⟨t, ht⟩ := dropWhile_append_exists pyIsSpace l.reverse
  refine ⟨t.reverse, ?_⟩
  have := congrArg List.reverse ht
  simpa [rstripWS] using this

theorem lstripWS_of_head (l : List Char)
    (h : ∀ c t, l = c :: t → pyIsSpace c = false) : lstripWS l = l := by
  cases l with
  | nil => rfl
  | cons c t => simp [lstripWS, List.dropWhile_cons, h c t rfl]

theorem lstripWS_rstripWS_of_lstrip (l : List Char) (h : lstripWS l = l) :
    lstripWS (rstripWS l) = rstripWS l := by
  obtain ⟨t, ht⟩ := rstripWS_isPrefix l
  apply lstripWS_of_head
  intro c u hcu
  have : l = c :: (u ++ t) := by rw [ht, hcu]; simp
  have hl : lstripWS l = l := h
  rw [this] at hl
  exact dropWhile_cons_self pyIsSpace c (u ++ t) hl

theorem stripWS_idem (l : List Char) : stripWS (stripWS l) = stripWS l := by
  unfold stripWS
  rw [lstripWS_rstripWS_of_lstrip (lstripWS l) (dropWhile_idem pyIsSpace l),
    rstripWS_idem]

theorem noRun_stripWS (l : List Char) (h : NoWSRun l) : NoWSRun (stripWS l) := by
  unfold stripWS rstripWS lstripWS
  exact noRun_reverse _ (noRun_dropWhile _ _ (noRun_reverse _ (noRun_dropWhile _ _ h)))

theorem allWS_stripWS (l : List Char) (h : AllWSSpace l) : AllWSSpace (stripWS l) := by
  intro c hc hcs
  apply h c _ hcs
  unfold stripWS rstripWS lstripWS at hc
  have h1 := List.mem_reverse.mp hc
  have h2 := mem_of_mem_dropWhile _ _ _ h1
  have h3 := List.mem_reverse.mp h2
  exact mem_of_mem_dropWhile _ _ _ h3

/-- Key fixed-point fact: whitespace collapsing is idempotent. -/
theorem collapseWS_idem (s : String) : collapseWS (collapseWS s) = collapseWS s := by
  unfold collapseWS
  congr 1
  have hdata : (String.mk (stripWS (squeezeWS s.data))).data = stripWS (squeezeWS s.data) := rfl
  rw [hdata]
  have hnr : NoWSRun (stripWS (squeezeWS s.data)) :=
    noRun_stripWS _ (squeezeWS_noRun s.data)
  have hws : AllWSSpace (stripWS (squeezeWS s.data)) :=
    allWS_stripWS _ (squeezeWS_allWS s.data)
  rw [squeezeWS_eq_self _ hnr hws, stripWS_idem]

/-- C7: holder-name canonicalization (`clean_holder_name`) is idempotent —
every alias label is a fixed point, and a cleaned string matched by no alias
rule is returned unchanged and still matches no rule on a second pass. -/
theorem c7_clean_holder_name_idempotent (x : String) :
    clean_holder_name (clean_holder_name x) = clean_holder_name x := by
  cases h : aliasLookup (lowerChars (collapseWS x).data) with
  | none =>
    have hx : clean_holder_name x = collapseWS x := by
      simp only [clean_holder_name, h]
    rw [hx]
    simp only [clean_holder_name, collapseWS_idem, h]
  | some repl =>
    have hx : clean_holder_name x = repl := by
      simp only [clean_holder_name, h]
    rw [hx]
    unfold aliasLookup at h
    split_ifs at h <;> (injection h with h2; subst h2; decide)

theorem charListLt_lists (l1 l2 : List Char) : charListLt l1 l2 = true ↔ l1 < l2 := by
  induction l1 generalizing l2 with
  | nil =>
    cases l2 with
    | nil =>
      constructor
      · intro h; exact absurd h (by simp [charListLt])
      · intro h; cases h
    | cons b bs =>
      constructor
      · intro _; exact List.Lex.nil
      · intro _; rfl
  | cons a as ih =>
    cases l2 with
    | nil =>
      constructor
      · intro h; exact absurd h (by simp [charListLt])
      · intro h; cases h
    | cons b bs =>
      by_cases hab : a < b
      · constructor
        · intro _; exact List.Lex.rel hab
        · intro _; simp [charListLt, hab]
      · by_cases hba : b < a
        · constructor
          · intro h
            simp only [charListLt, if_neg hab, if_pos hba] at h
            exact Bool.noConfusion h
          · intro h
            cases h with
            | rel h' => exact absurd h' hab
            | cons h' => exact absurd hba (lt_irrefl a)
        · have heq : a = b := le_antisymm (le_of_not_lt hba) (le_of_not_lt hab)
          subst heq
          simp only [charListLt, if_neg hab, if_neg hba]
          rw [ih bs]
          constructor
          · exact fun h => List.Lex.cons h
          · intro h
            cases h with
            | rel h' => exact absurd h' hab
            | cons h' => exact h'

theorem charListLt_iff (a b : String) : pyStrLt a b = true ↔ a < b := by
  rw [String.lt_iff_toList_lt]
  exact charListLt_lists a.data b.data

theorem scanLatest_cons (dates : List String) (f : String) (fs : List String) (i : Nat)
    (acc : Option (Nat × String)) :
    scanLatest dates (f :: fs) i acc =
      scanLatest dates fs (i + 1)
        (if isProxyForm f then
          match acc with
          | none => some (i, dates.getD i "")
          | some (j0, ld) =>
            if pyStrLt ld (dates.getD i "") then some (i, dates.getD i "") else some (j0, ld)
        else acc) := rfl

theorem scanLatest_none_iff (dates : List String) (fs : List String) (i : Nat)
    (acc : Option (Nat × String)) :
    scanLatest dates fs i acc = none ↔
      acc = none ∧ ∀ k, k < fs.length → isProxyForm (fs.getD k "") = false := by
  induction fs generalizing i acc with
  | nil => simp [scanLatest]
  | cons f fs ih =>
    rw [scanLatest_cons, ih]
    by_cases hf : isProxyForm f = true
    · rw [if_pos hf]
      constructor
      · rintro ⟨hnone, -⟩
        exfalso
        cases acc with
        | none => exact Option.noConfusion hnone
        | some x =>
          rcases x with ⟨j0, ld⟩
          dsimp only at hnone
          split at hnone <;> exact Option.noConfusion hnone
      · rintro ⟨-, hall⟩
        exfalso
        have := hall 0 (by simp)
        simp [hf] at this
    · rw [if_neg hf]
      constructor
      · rintro ⟨hnone, hall⟩
        refine ⟨hnone, fun k hk => ?_⟩
        cases k with
        | zero => simpa using hf
        | succ k' => simpa using hall k' (by simpa using hk)
      · rintro ⟨hnone, hall⟩
        exact ⟨hnone, fun k hk => by simpa using hall (k + 1) (by simpa using hk)⟩

theorem scanLatest_max (dates : List String) (fs : List String) (i : Nat)
    (acc : Option (Nat × String)) (j : Nat) (d : String)
    (h : scanLatest dates fs i acc = some (j, d)) :
    (∀ j0 d0, acc = some (j0, d0) → d0 ≤ d) ∧
    (∀ k, k < fs.length → isProxyForm (fs.getD k "") = true →
      dates.getD (i + k) "" ≤ d) := by
  induction fs generalizing i acc with
  | nil =>
    simp [scanLatest] at h
    refine ⟨fun j0 d0 hacc => ?_, fun k hk => by simp at hk⟩
    rw [hacc] at h
    cases h
    exact le_refl _
  | cons f fs ih =>
    rw [scanLatest_cons] at h
    by_cases hf : isProxyForm f = true
    · rw [if_pos hf] at h
      have hdle : dates.getD i "" ≤ d := by
        cases acc with
        | none => exact (ih (i + 1) _ h).1 i (dates.getD i "") rfl
        | some x =>
          rcases x with ⟨j0, ld⟩
          dsimp only at h
          by_cases hlt : pyStrLt ld (dates.getD i "") = true
          · rw [if_pos hlt] at h
            exact (ih (i + 1) _ h).1 i (dates.getD i "") rfl
          · rw [if_neg hlt] at h
            exact le_trans (le_of_not_lt fun hc => hlt ((charListLt_iff ld _).mpr hc))
              ((ih (i + 1) _ h).1 j0 ld rfl)
      constructor
      · intro j0 d0 hacc
        subst hacc
        dsimp only at h
        by_cases hlt : pyStrLt d0 (dates.getD i "") = true
        · exact le_trans (le_of_lt ((charListLt_iff d0 _).mp hlt)) hdle
        · rw [if_neg hlt] at h
          exact (ih (i + 1) _ h).1 j0 d0 rfl
      · intro k hk hproxy
        cases k with
        | zero => simpa using hdle
        | succ k' =>
          have hres := (ih (i + 1) _ h).2 k' (by simpa using hk) (by simpa using hproxy)
          have harith : i + 1 + k' = i + (k' + 1) := by omega
          rwa [harith] at hres
    · rw [if_neg hf] at h
      refine ⟨(ih (i + 1) acc h).1, fun k hk hproxy => ?_⟩
      cases k with
      | zero => simp at hproxy; exact absurd hproxy hf
      | succ k' =>
        have hres := (ih (i + 1) acc h).2 k' (by simpa using hk) (by simpa using hproxy)
        have harith : i + 1 + k' = i + (k' + 1) := by omega
        rwa [harith] at hres

theorem scanLatest_mem (dates : List String) (fs : List String) (i : Nat)
    (acc : Option (Nat × String)) (j : Nat) (d : String)
    (h : scanLatest dates fs i acc = some (j, d)) :
    acc = some (j, d) ∨
      ∃ k, k < fs.length ∧ j = i + k ∧ isProxyForm (fs.getD k "") = true ∧
        dates.getD j "" = d := by
  induction fs generalizing i acc with
  | nil =>
    simp [scanLatest] at h
    exact Or.inl h
  | cons f fs ih =>
    rw [scanLatest_cons] at h
    by_cases hf : isProxyForm f = true
    · rw [if_pos hf] at h
      rcases ih (i + 1) _ h with hl | ⟨k, hk, hjk, hpk, hdk⟩
      · cases acc with
        | none =>
          cases hl
          exact Or.inr ⟨0, by simp, by simp, by simpa using hf, by simp⟩
        | some x =>
          rcases x with ⟨j0, ld⟩
          dsimp only at hl
          by_cases hlt : pyStrLt ld (dates.getD i "") = true
          · rw [if_pos hlt] at hl
            cases hl
            exact Or.inr ⟨0, by simp, by simp, by simpa using hf, by simp⟩
          · rw [if_neg hlt] at hl
            exact Or.inl hl
      · exact Or.inr ⟨k + 1, by simpa using hk, by omega, by simpa using hpk, hdk⟩
    · rw [if_neg hf] at h
      rcases ih (i + 1) acc h with hl | ⟨k, hk, hjk, hpk, hdk⟩
      · exact Or.inl hl
      · exact Or.inr ⟨k + 1, by simpa using hk, by omega, by simpa using hpk, hdk⟩

/-- C2 (amended): `find_latest_def14a` selects, among entries whose stripped,
uppercased form is `DEF 14A` or `DEF 14`, an entry whose filing-date string is
lexicographically greatest — in particular it picks the `2024-06-15` entry of
the two-filing scenario in either order.  (The claim as frozen also covers
`_get_latest_filing_url_fast`, which instead returns the first matching entry
in array order; see the counterexample.) -/
theorem c2_find_latest_selects_max (r : Recent) (d a p : String)
    (h : find_latest_def14a r = some (d, a, p)) :
    (∃ i, i < r.form.length ∧ isProxyForm (r.form.getD i "") = true ∧
      r.filingDate.getD i "" = d) ∧
    (∀ j, j < r.form.length → isProxyForm (r.form.getD j "") = true →
      r.filingDate.getD j "" ≤ d) := by
  unfold find_latest_def14a at h
  cases heq : scanLatest r.filingDate r.form 0 none with
  | none => rw [heq] at h; exact Option.noConfusion h
  | some x =>
    rcases x with ⟨i0, d0⟩
    rw [heq] at h
    have hd : d0 = d := by cases h; rfl
    subst hd
    constructor
    · rcases scanLatest_mem r.filingDate r.form 0 none i0 d0 heq with hl | ⟨k, hk, hjk, hpk, hdk⟩
      · exact Option.noConfusion hl
      · exact ⟨k, hk, hpk, by rwa [show k = i0 by omega]⟩
    · intro j hj hpj
      have := (scanLatest_max r.filingDate r.form 0 none i0 d0 heq).2 j hj hpj
      simpa using this

/-- C2 witness: on the concrete two-`DEF 14A` document with the older filing
listed first, the selected date is `2024-06-15` and is maximal. -/
theorem c2_find_latest_selects_max_witness :
    (∃ i, i < twoFilingsOldFirst.form.length ∧
      isProxyForm (twoFilingsOldFirst.form.getD i "") = true ∧
      twoFilingsOldFirst.filingDate.getD i "" = "2024-06-15") ∧
    (∀ j, j < twoFilingsOldFirst.form.length →
      isProxyForm (twoFilingsOldFirst.form.getD j "") = true →
      twoFilingsOldFirst.filingDate.getD j "" ≤ "2024-06-15") :=
  c2_find_latest_selects_max twoFilingsOldFirst "2024-06-15" "000224" "b.htm" (by decide)

/-- C2 counterexample: `_get_latest_filing_url_fast` does **not** select the
lexicographically-greatest filing date: on the same document (2023-01-01
listed before 2024-06-15, both `DEF 14A` with primary documents) it returns
the URL built from the 2023 entry's accession number `0001-23` and document
`a.htm`, not the 2024 entry's. -/
theorem c2_fast_locator_counterexample :
    getLatestFilingUrlFast "0000320193" twoFilingsOldFirst =
      some "https://www.sec.gov/Archives/edgar/data/320193/000123/a.htm" ∧
    twoFilingsOldFirst.filingDate.getD 0 "" = "2023-01-01" ∧
    twoFilingsOldFirst.filingDate.getD 1 "" = "2024-06-15" ∧
    isProxyForm (twoFilingsOldFirst.form.getD 1 "") = true := by
  refine ⟨?_, rfl, rfl, by decide⟩
  decide

/-- C6: the composed locator (`find_latest_def14a` plus the primary-document
guard of `fetch_ownership_for_sp500`) returns `none` exactly when no entry's
form matches the accepted proxy labels, or the winning entry's primary
document is empty/missing; otherwise it returns a filing reference. -/
theorem c6_latestProxyFiling_none_iff (r : Recent) :
    latestProxyFiling r = none ↔
      ((∀ k, k < r.form.length → isProxyForm (r.form.getD k "") = false) ∨
        ∃ d a, find_latest_def14a r = some (d, a, "")) := by
  constructor
  · intro h0
    unfold latestProxyFiling at h0
    cases heq : find_latest_def14a r with
    | none =>
      left
      unfold find_latest_def14a at heq
      cases hscan : scanLatest r.filingDate r.form 0 none with
      | none => exact ((scanLatest_none_iff r.filingDate r.form 0 none).mp hscan).2
      | some x =>
        rw [hscan] at heq
        simp at heq
    | some x =>
      rcases x with ⟨d0, a0, p0⟩
      rw [heq] at h0
      by_cases hp : p0 = ""
      · subst hp
        exact Or.inr ⟨d0, a0, rfl⟩
      · rw [show (match some (d0, a0, p0) with
          | none => (none : Option (String × String × String))
          | some (d, a, p) => if p = "" then none else some (d, a, p)) =
            if p0 = "" then none else some (d0, a0, p0) from rfl] at h0
        rw [if_neg hp] at h0
        exact Option.noConfusion h0
  · intro h0
    rcases h0 with hall | ⟨d1, a1, heq1⟩
    · have hscan : scanLatest r.filingDate r.form 0 none = none :=
        (scanLatest_none_iff r.filingDate r.form 0 none).mpr ⟨rfl, hall⟩
      have hnone : find_latest_def14a r = none := by
        unfold find_latest_def14a
        rw [hscan]
      simp [latestProxyFiling, hnone]
    · simp [latestProxyFiling, heq1]

/- Batteries marks rational arithmetic `@[irreducible]`, which blocks `decide`
on concrete tables; restore default reducibility for kernel evaluation. -/
attribute [local semireducible] Rat.add Rat.mul Rat.inv

/-- C4 (code bug): the column detector does **not** always keep the leftmost
matching column.  Python's `not col_mapping.get('name')` is true again when the
stored index is the falsy integer `0`, so on the header
`["holder", "holder name"]` the name role is first assigned to column 0 and
then overwritten by column 1.  The first-match-wins guard the code intends
(and the spec states) would keep column 0. -/
theorem c4_falsy_zero_overwrites_leftmost :
    detect_ownership_columns ["holder", "holder name"] =
      { name := some 1, percent := none, shares := none } ∧
    anyKeyword nameKeywords (lowerChars "holder".data) = true := by
  exact ⟨by decide, by decide⟩

/-- C5: on the spec's concrete two-row table, extraction yields exactly one
record — the Total row is dropped, the holder is canonicalised to
"Vanguard Group", shares parse to 1234567 and percent to 8.5. -/
theorem c5_scenario_extraction :
    process_ownership_table scenarioTable =
      [{ holder_raw := "The Vanguard Group, Inc.", holder := "Vanguard Group",
         percent_class := some (17 / 2 : ℚ), shares := some 1234567 }] := by
  decide

/-- C1 counterexample: `process_ownership_table` emits a record whose `shares`
and `percent_class` are **both** null — the row filters only drop "total" rows
and one-character holders, so a row with unparseable numeric cells survives. -/
theorem c1_table_path_counterexample :
    process_ownership_table bothNullTable =
      [{ holder_raw := "John Smith", holder := "John Smith",
         percent_class := none, shares := none }] := by
  decide

theorem firstRecord_mem (f : List Tok → Option Holder) (pats : List (List Tok))
    (h : Holder) (hh : firstRecord f pats = some h) :
    ∃ toks ∈ pats, f toks = some h := by
  induction pats with
  | nil => simp [firstRecord] at hh
  | cons toks rest ih =>
    unfold firstRecord at hh
    cases hf : f toks with
    | some h' =>
      rw [hf] at hh
      cases hh
      exact ⟨toks, by simp, hf⟩
    | none =>
      rw [hf] at hh
      obtain ⟨t', ht', hft'⟩ := ih hh
      exact ⟨t', by simp [ht'], hft'⟩

theorem truthyNat_ne_none (x : Option Nat) (h : truthyNat x = true) : x ≠ none := by
  cases x with
  | none => simp [truthyNat] at h
  | some n => simp

theorem truthyQ_ne_none (x : Option ℚ) (h : truthyQ x = true) : x ≠ none := by
  cases x with
  | none => simp [truthyQ] at h
  | some q => simp

theorem tryPatternSimple_some (content lower : List Char) (t c nm : String)
    (toks : List Tok) (h : Holder)
    (hh : tryPatternSimple content lower t c nm toks = some h) :
    h.holder_name = nm ∧ (truthyNat h.shares || truthyQ h.percent_owned) = true := by
  unfold tryPatternSimple at hh
  cases hspan : firstMatchSpan toks lower with
  | none => rw [hspan] at hh; exact Option.noConfusion hh
  | some se =>
    rcases se with ⟨s, e⟩
    rw [hspan] at hh
    dsimp only at hh
    split at hh
    · cases hh
      exact ⟨rfl, by assumption⟩
    · exact Option.noConfusion hh

theorem tryPatternFast_some (content lower : List Char) (t c nm : String)
    (toks : List Tok) (h : Holder)
    (hh : tryPatternFast content lower t c nm toks = some h) :
    h.holder_name = nm ∧ (truthyNat h.shares || truthyQ h.percent_owned) = true ∧
      (h.percent_owned = none ∨
        ∃ p, h.percent_owned = some p ∧ 1 / 10 ≤ p ∧ p ≤ 50) := by
  unfold tryPatternFast at hh
  cases hspan : firstMatchSpan toks lower with
  | none => rw [hspan] at hh; exact Option.noConfusion hh
  | some se =>
    rcases se with ⟨s, e⟩
    rw [hspan] at hh
    dsimp only at hh
    split at hh
    · cases hh
      refine ⟨rfl, by assumption, ?_⟩
      cases hq : percentSearch (some 2)
          (pySlice content (s - 800) (min content.length (e + 800))) with
      | none =>
        left
        dsimp only
      | some q =>
        dsimp only
        by_cases hrange : 1 / 10 ≤ q ∧ q ≤ 50
        · rw [if_pos hrange]
          exact Or.inr ⟨q, rfl, hrange.1, hrange.2⟩
        · rw [if_neg hrange]
          exact Or.inl rfl
    · exact Option.noConfusion hh

theorem names_sublist (F : String → List (List Tok) → Option Holder)
    (hF : ∀ nm pats h, F nm pats = some h → h.holder_name = nm)
    (insts : List (String × List (List Tok))) :
    ((insts.filterMap fun inst => F inst.1 inst.2).map (fun h => h.holder_name)).Sublist
      (insts.map Prod.fst) := by
  induction insts with
  | nil => simp
  | cons a rest ih =>
    cases hFa : F a.1 a.2 with
    | none =>
      simp only [List.filterMap_cons, hFa, List.map_cons]
      exact ih.cons a.1
    | some h =>
      simp only [List.filterMap_cons, hFa, List.map_cons]
      rw [hF a.1 a.2 h hFa]
      exact ih.cons₂ a.1

/-- C1 (amended): in the institution-pattern extraction paths (simple and
comprehensive scrapers) every emitted record has `shares` or `percent_owned`
non-null — the `if shares or percent` guard enforces the invariant there.
(The table-based path does not enforce it; see the counterexample.) -/
theorem c1_pattern_paths_quantitative (content ticker cname : String) :
    (∀ h ∈ extract_holders_simple content ticker cname,
      h.shares ≠ none ∨ h.percent_owned ≠ none) ∧
    (∀ h ∈ extract_inst_fast content ticker cname,
      h.shares ≠ none ∨ h.percent_owned ≠ none) := by
  constructor
  · intro h hmem
    unfold extract_holders_simple at hmem
    obtain ⟨inst, -, hinst⟩ := List.mem_filterMap.mp hmem
    obtain ⟨toks, -, htoks⟩ := firstRecord_mem _ _ _ hinst
    have := (tryPatternSimple_some _ _ _ _ _ _ _ htoks).2
    rcases Bool.or_eq_true_iff.mp this with ht | ht
    · exact Or.inl (truthyNat_ne_none _ ht)
    · exact Or.inr (truthyQ_ne_none _ ht)
  · intro h hmem
    unfold extract_inst_fast at hmem
    obtain ⟨inst, -, hinst⟩ := List.mem_filterMap.mp hmem
    obtain ⟨toks, -, htoks⟩ := firstRecord_mem _ _ _ hinst
    have := (tryPatternFast_some _ _ _ _ _ _ _ htoks).2.1
    rcases Bool.or_eq_true_iff.mp this with ht | ht
    · exact Or.inl (truthyNat_ne_none _ ht)
    · exact Or.inr (truthyQ_ne_none _ ht)

/-- C1 witness: a concrete filing snippet yields a record, and the theorem
applies to it. -/
theorem c1_pattern_paths_quantitative_witness :
    vanguardFivePct.shares ≠ none ∨ vanguardFivePct.percent_owned ≠ none :=
  (c1_pattern_paths_quantitative "vanguard group 5%" "T" "C").1 vanguardFivePct (by decide)

/-- C3 (amended): the table pipeline's final validation step nulls every
percentage outside `[0, 100]`, and the comprehensive pattern path's `[0.1, 50]`
gate keeps every emitted percentage inside `[0, 100]`.  (The simple pattern
path applies no range validation; see the counterexample.) -/
theorem c3_percent_range :
    (∀ col y, y ∈ validate_percent_col col →
      y = none ∨ ∃ v, y = some v ∧ 0 ≤ v ∧ v ≤ 100) ∧
    (∀ content ticker cname : String, ∀ h ∈ extract_inst_fast content ticker cname,
      h.percent_owned = none ∨
        ∃ p, h.percent_owned = some p ∧ 0 ≤ p ∧ p ≤ 100) := by
  constructor
  · intro col y hy
    unfold validate_percent_col at hy
    obtain ⟨x, -, hx⟩ := List.mem_map.mp hy
    cases x with
    | none => exact Or.inl hx.symm
    | some v =>
      dsimp only at hx
      by_cases hr : 0 ≤ v ∧ v ≤ 100
      · rw [if_pos hr] at hx
        exact Or.inr ⟨v, hx.symm, hr.1, hr.2⟩
      · rw [if_neg hr] at hx
        exact Or.inl hx.symm
  · intro content ticker cname h hmem
    unfold extract_inst_fast at hmem
    obtain ⟨inst, -, hinst⟩ := List.mem_filterMap.mp hmem
    obtain ⟨toks, -, htoks⟩ := firstRecord_mem _ _ _ hinst
    rcases (tryPatternFast_some _ _ _ _ _ _ _ htoks).2.2 with hnone | ⟨p, hp, h1, h2⟩
    · exact Or.inl hnone
    · exact Or.inr ⟨p, hp, le_trans (by norm_num) h1, le_trans h2 (by norm_num)⟩

/-- C3 witness: the validation lambda keeps an in-range value, and a concrete
comprehensive-path record satisfies the bound. -/
theorem c3_percent_range_witness :
    (some (50 : ℚ) = none ∨ ∃ v, some (50 : ℚ) = some v ∧ 0 ≤ v ∧ v ≤ 100) ∧
    (fmrHolder.percent_owned = none ∨
      ∃ p, fmrHolder.percent_owned = some p ∧ 0 ≤ p ∧ p ≤ 100) :=
  ⟨c3_percent_range.1 [some 50] (some 50) (by decide),
   c3_percent_range.2 "fmr llc 1,000 2%" "T" "C" fmrHolder (by decide)⟩

/-- C3 counterexample: the simple pattern path emits a record with
`percent_owned = 250`, far outside `[0, 100]` — no range validation exists on
that path. -/
theorem c3_simple_path_counterexample :
    extract_holders_simple "vanguard group 250%" "T" "C" = [vanguard250Pct] ∧
    vanguard250Pct.percent_owned = some 250 ∧ ¬((250 : ℚ) ≤ 100) := by
  exact ⟨by decide, rfl, by norm_num⟩

/-- C10: the pattern-based extractors emit at most one record per institution
(the `break` after the first successful pattern), so the holder names of one
filing's records are pairwise distinct. -/
theorem c10_distinct_holder_names (content ticker cname : String) :
    List.Pairwise (· ≠ ·)
      ((extract_holders_simple content ticker cname).map (fun h => h.holder_name)) ∧
    List.Pairwise (· ≠ ·)
      ((extract_inst_fast content ticker cname).map (fun h => h.holder_name)) := by
  constructor
  · have hsub := names_sublist
      (fun nm pats => firstRecord (tryPatternSimple content.data (lowerChars content.data)
        ticker cname nm) pats)
      (fun nm pats h hh => by
        obtain ⟨toks, -, htoks⟩ := firstRecord_mem _ _ _ hh
        exact (tryPatternSimple_some _ _ _ _ _ _ _ htoks).1)
      institutionsSimple
    refine List.Pairwise.sublist hsub ?_
    decide
  · have hsub := names_sublist
      (fun nm pats => firstRecord (tryPatternFast content.data (lowerChars content.data)
        ticker cname nm) pats)
      (fun nm pats h hh => by
        obtain ⟨toks, -, htoks⟩ := firstRecord_mem _ _ _ hh
        exact (tryPatternFast_some _ _ _ _ _ _ _ htoks).1)
      institutionsFast
    refine List.Pairwise.sublist hsub ?_
    decide

theorem isPrefixOf_iff_exists (p l : List Char) :
    p.isPrefixOf l = true ↔ ∃ t, l = p ++ t := by
  induction p generalizing l with
  | nil => simp [List.isPrefixOf]
  | cons a as ih =>
    cases l with
    | nil =>
      simp [List.isPrefixOf]
    | cons b bs =>
      simp only [List.isPrefixOf, Bool.and_eq_true, beq_iff_eq, ih]
      constructor
      · rintro ⟨hab, t, ht⟩
        exact ⟨t, by rw [hab, ht]; rfl⟩
      · rintro ⟨t, ht⟩
        injection ht with h1 h2
        exact ⟨h1.symm, t, h2⟩

theorem listContains_iff (pat l : List Char) :
    listContains pat l = true ↔ ContainsSeq pat l := by
  unfold ContainsSeq
  induction l with
  | nil =>
    simp only [listContains, List.isEmpty_iff]
    constructor
    · intro h
      exact ⟨[], [], by simp [h]⟩
    · rintro ⟨u, v, huv⟩
      have h0 := List.append_eq_nil.mp huv.symm
      exact (List.append_eq_nil.mp h0.1).2
  | cons c rest ih =>
    simp only [listContains, Bool.or_eq_true, isPrefixOf_iff_exists, ih]
    constructor
    · rintro (⟨t, ht⟩ | ⟨u, v, huv⟩)
      · exact ⟨[], t, by simp [ht]⟩
      · exact ⟨c :: u, v, by simp [huv]⟩
    · rintro ⟨u, v, huv⟩
      cases u with
      | nil => exact Or.inl ⟨v, by simpa using huv⟩
      | cons x u' =>
        injection huv with h1 h2
        exact Or.inr ⟨u', v, h2⟩

theorem tagClose_iff (l : List Char) :
    tagClose l = true ↔ ∃ w v, (∀ c ∈ w, c.isAlpha = true) ∧ l = w ++ '>' :: v := by
  induction l with
  | nil =>
    simp only [tagClose]
    constructor
    · intro h
      exact Bool.noConfusion h
    · rintro ⟨w, v, -, hwv⟩
      exact absurd hwv (by simp)
  | cons c rest ih =>
    by_cases hc : c = '>'
    · subst hc
      simp only [tagClose, if_pos rfl]
      constructor
      · intro _
        exact ⟨[], rest, fun x hx => absurd hx (by simp), rfl⟩
      · intro _
        rfl
    · rw [show tagClose (c :: rest) = (c.isAlpha && tagClose rest) by
        simp [tagClose, hc]]
      simp only [Bool.and_eq_true, ih]
      constructor
      · rintro ⟨ha, w, v, hw, hwv⟩
        refine ⟨c :: w, v, ?_, by simp [hwv]⟩
        intro x hx
        rcases List.mem_cons.mp hx with hx | hx
        · subst hx; exact ha
        · exact hw x hx
      · rintro ⟨w, v, hw, hwv⟩
        cases w with
        | nil =>
          injection hwv with h1 h2
          exact absurd h1 hc
        | cons x w' =>
          injection hwv with h1 h2
          subst h1
          exact ⟨hw c (by simp), w', v, fun y hy => hw y (by simp [hy]), h2⟩

theorem closingTagAt_iff (l : List Char) :
    closingTagAt l = true ↔
      ∃ w v, w ≠ [] ∧ (∀ c ∈ w, c.isAlpha = true) ∧
        l = '<' :: '/' :: (w ++ '>' :: v) := by
  constructor
  · intro h
    match l, h with
    | a :: b :: c :: rest, h =>
      simp only [closingTagAt, Bool.and_eq_true, beq_iff_eq] at h
      obtain ⟨⟨⟨ha, hb⟩, hca⟩, htc⟩ := h
      obtain ⟨w, v, hw, hwv⟩ := (tagClose_iff rest).mp htc
      subst ha; subst hb
      refine ⟨c :: w, v, by simp, ?_, by simp [hwv]⟩
      intro x hx
      rcases List.mem_cons.mp hx with hx | hx
      · subst hx; exact hca
      · exact hw x hx
  · rintro ⟨w, v, hne, hw, hwv⟩
    cases w with
    | nil => exact absurd rfl hne
    | cons x w' =>
      subst hwv
      have ht : tagClose (w' ++ '>' :: v) = true :=
        (tagClose_iff _).mpr ⟨w', v, fun y hy => hw y (by simp [hy]), rfl⟩
      have hx : x.isAlpha = true := hw x (by simp)
      simp [closingTagAt, ht, hx]

theorem hasClosingTagB_iff (l : List Char) :
    hasClosingTagB l = true ↔ HasClosingTag l := by
  unfold HasClosingTag
  induction l with
  | nil =>
    simp only [hasClosingTagB]
    constructor
    · intro h
      exact Bool.noConfusion h
    · rintro ⟨u, w, v, -, -, hwv⟩
      exact absurd hwv (by simp)
  | cons c rest ih =>
    simp only [hasClosingTagB, Bool.or_eq_true, ih, closingTagAt_iff]
    constructor
    · rintro (⟨w, v, hne, hw, hwv⟩ | ⟨u, w, v, hne, hw, hwv⟩)
      · exact ⟨[], w, v, hne, hw, by simp [hwv]⟩
      · exact ⟨c :: u, w, v, hne, hw, by simp [hwv]⟩
    · rintro ⟨u, w, v, hne, hw, hwv⟩
      cases u with
      | nil =>
        exact Or.inl ⟨w, v, hne, hw, by simpa using hwv⟩
      | cons x u' =>
        injection hwv with h1 h2
        exact Or.inr ⟨u', w, v, hne, hw, h2⟩

/-- C8: the content-type sniffer classifies by exactly the specified decision
order — markup when a doctype or closing `</html>` occurs (case-insensitively),
otherwise structured markup when an XML processing instruction or any closing
tag occurs, otherwise plain text. -/
theorem c8_detect_content_type_order (content : String) :
    (detect_content_type content = "html" ↔ HtmlMark content) ∧
    (detect_content_type content = "xml" ↔ (¬HtmlMark content ∧ XmlMark content)) ∧
    (detect_content_type content = "text" ↔ (¬HtmlMark content ∧ ¬XmlMark content)) := by
  have hhtml : (listContains "<!doctype html".data (lowerChars content.data)
      || listContains "</html>".data (lowerChars content.data)) = true ↔ HtmlMark content := by
    rw [Bool.or_eq_true, listContains_iff, listContains_iff]
    rfl
  have hxml : (listContains "<?xml".data content.data || hasClosingTagB content.data) = true ↔
      XmlMark content := by
    rw [Bool.or_eq_true, listContains_iff, hasClosingTagB_iff]
    rfl
  unfold detect_content_type
  by_cases h1 : (listContains "<!doctype html".data (lowerChars content.data)
      || listContains "</html>".data (lowerChars content.data)) = true
  · rw [if_pos h1]
    have hm : HtmlMark content := hhtml.mp h1
    refine ⟨⟨fun _ => hm, fun _ => rfl⟩, ?_, ?_⟩
    · constructor
      · intro hcontra
        exact absurd hcontra (by decide)
      · rintro ⟨hnm, -⟩
        exact absurd hm hnm
    · constructor
      · intro hcontra
        exact absurd hcontra (by decide)
      · rintro ⟨hnm, -⟩
        exact absurd hm hnm
  · rw [if_neg h1]
    have hnm : ¬HtmlMark content := fun hm => h1 (hhtml.mpr hm)
    by_cases h2 : (listContains "<?xml".data content.data || hasClosingTagB content.data) = true
    · rw [if_pos h2]
      have hx : XmlMark content := hxml.mp h2
      refine ⟨?_, ⟨fun _ => ⟨hnm, hx⟩, fun _ => rfl⟩, ?_⟩
      · constructor
        · intro hcontra
          exact absurd hcontra (by decide)
        · intro hm
          exact absurd hm hnm
      · constructor
        · intro hcontra
          exact absurd hcontra (by decide)
        · rintro ⟨-, hnx⟩
          exact absurd hx hnx
    · rw [if_neg h2]
      have hnx : ¬XmlMark content := fun hx => h2 (hxml.mpr hx)
      refine ⟨?_, ?_, ⟨fun _ => ⟨hnm, hnx⟩, fun _ => rfl⟩⟩
      · constructor
        · intro hcontra
          exact absurd hcontra (by decide)
        · intro hm
          exact absurd hm hnm
      · constructor
        · intro hcontra
          exact absurd hcontra (by decide)
        · rintro ⟨-, hx⟩
          exact absurd hx hnx

theorem sleepList_succ (backoff : ℚ) (i rem : Nat) :
    backoff * 2 ^ i :: (List.range rem).map (fun t => backoff * 2 ^ (i + 1 + t)) =
      (List.range (rem + 1)).map (fun t => backoff * 2 ^ (i + t)) := by
  rw [List.range_succ_eq_map, List.map_cons, List.map_map]
  refine congrArg₂ List.cons ?_ ?_
  · simp
  · apply List.map_congr_left
    intro a _
    simp only [Function.comp_apply]
    congr 2
    omega

theorem run_fetch_aux_all_fail (outcomes : Nat → Outcome) (backoff : ℚ)
    (remaining : Nat) : ∀ i : Nat,
    (∀ j, i ≤ j → j ≤ i + remaining → attemptFails (outcomes j)) →
    run_fetch_aux outcomes backoff i remaining =
      (Except.error FetchErr.network,
        (List.range remaining).map fun t => backoff * 2 ^ (i + t)) := by
  induction remaining with
  | zero =>
    intro i hfail
    have hi := hfail i (le_refl i) (by omega)
    unfold run_fetch_aux
    cases hout : outcomes i with
    | err => simp
    | resp s b =>
      rw [hout] at hi
      have hi' : 400 ≤ s ∧ s < 600 := hi
      dsimp only
      rw [if_pos hi']
      simp
  | succ rem ih =>
    intro i hfail
    have hi := hfail i (le_refl i) (by omega)
    have hrec := ih (i + 1) (fun j hj1 hj2 => hfail j (by omega) (by omega))
    unfold run_fetch_aux
    cases hout : outcomes i with
    | err =>
      dsimp only
      rw [hrec]
      exact congrArg (Prod.mk _) (sleepList_succ backoff i rem)
    | resp s b =>
      rw [hout] at hi
      have hi' : 400 ≤ s ∧ s < 600 := hi
      dsimp only
      rw [if_pos hi', hrec]
      exact congrArg (Prod.mk _) (sleepList_succ backoff i rem)

theorem run_fetch_aux_first_ok (outcomes : Nat → Outcome) (backoff : ℚ)
    (s : Nat) (b : String) (hok : ¬(400 ≤ s ∧ s < 600)) :
    ∀ k i remaining : Nat, k ≤ remaining →
    (∀ j, i ≤ j → j < i + k → attemptFails (outcomes j)) →
    outcomes (i + k) = Outcome.resp s b →
    run_fetch_aux outcomes backoff i remaining =
      (Except.ok (s, b), (List.range k).map fun t => backoff * 2 ^ (i + t)) := by
  intro k
  induction k with
  | zero =>
    intro i remaining _ _ hsucc
    rw [Nat.add_zero] at hsucc
    cases remaining with
    | zero =>
      unfold run_fetch_aux
      rw [hsucc]
      dsimp only
      rw [if_neg hok]
      simp
    | succ rem =>
      unfold run_fetch_aux
      rw [hsucc]
      dsimp only
      rw [if_neg hok]
      simp
  | succ k ih =>
    intro i remaining hk hfail hsucc
    have hi := hfail i (le_refl i) (by omega)
    cases remaining with
    | zero => omega
    | succ rem =>
      have hrec := ih (i + 1) rem (by omega)
        (fun j hj1 hj2 => hfail j (by omega) (by omega))
        (by rw [show i + 1 + k = i + (k + 1) by omega]; exact hsucc)
      unfold run_fetch_aux
      cases hout : outcomes i with
      | err =>
        dsimp only
        rw [hrec]
        exact congrArg (Prod.mk _) (sleepList_succ backoff i k)
      | resp s' b' =>
        rw [hout] at hi
        have hi' : 400 ≤ s' ∧ s' < 600 := hi
        dsimp only
        rw [if_pos hi', hrec]
        exact congrArg (Prod.mk _) (sleepList_succ backoff i k)

/-- C9 (amended): `get_response` retries on transport failure or **4xx/5xx**
status (the statuses `raise_for_status` raises on) up to `retries` additional
times, sleeping `backoff * 2 ^ attempt` before each retry, and raises a
network error after exhausting them; a first non-raising response ends the
loop; and `get_json` raises a parse error, distinct from the network error,
when the body is not valid JSON.  (The claim's "non-2xx" is wrong for
statuses like 304, which are returned without retry; see the
counterexample.) -/
theorem c9_fetch_retry_behaviour :
    (∀ (outcomes : Nat → Outcome) (retries : Nat) (backoff : ℚ),
      (∀ j, j ≤ retries → attemptFails (outcomes j)) →
      run_fetch outcomes retries backoff =
        (Except.error FetchErr.network,
          (List.range retries).map fun t => backoff * 2 ^ t)) ∧
    (∀ (outcomes : Nat → Outcome) (retries k s : Nat) (b : String) (backoff : ℚ),
      k ≤ retries → (∀ j, j < k → attemptFails (outcomes j)) →
      outcomes k = Outcome.resp s b → ¬(400 ≤ s ∧ s < 600) →
      run_fetch outcomes retries backoff =
        (Except.ok (s, b), (List.range k).map fun t => backoff * 2 ^ t)) ∧
    (∀ (outcomes : Nat → Outcome) (jsonOk : String → Bool) (retries s : Nat)
        (b : String) (backoff : ℚ) (sleeps : List ℚ),
      run_fetch outcomes retries backoff = (Except.ok (s, b), sleeps) →
      jsonOk b = false →
      get_json_model outcomes jsonOk retries backoff =
        (Except.error FetchErr.parse, sleeps) ∧ FetchErr.parse ≠ FetchErr.network) := by
  refine ⟨?_, ?_, ?_⟩
  · intro outcomes retries backoff hfail
    have := run_fetch_aux_all_fail outcomes backoff retries 0
      (fun j hj1 hj2 => hfail j (by omega))
    rw [run_fetch, this]
    refine congrArg (Prod.mk _) (List.map_congr_left ?_)
    intro a _
    simp
  · intro outcomes retries k s b backoff hk hfail hsucc hok
    have := run_fetch_aux_first_ok outcomes backoff s b hok k 0 retries hk
      (fun j hj1 hj2 => hfail j (by omega)) (by simpa using hsucc)
    rw [run_fetch, this]
    refine congrArg (Prod.mk _) (List.map_congr_left ?_)
    intro a _
    simp
  · intro outcomes jsonOk retries s b backoff sleeps hrun hbad
    refine ⟨?_, by simp⟩
    unfold get_json_model
    rw [hrun]
    dsimp only
    rw [hbad]
    simp

/-- C9 witness: with every attempt a transport error, `retries = 2` and
`backoff = 1`, the fetch raises a network error after sleeping
`1 * 2 ^ 0` and `1 * 2 ^ 1` seconds. -/
theorem c9_fetch_retry_behaviour_witness :
    run_fetch (fun _ => Outcome.err) 2 1 =
      (Except.error FetchErr.network, (List.range 2).map fun t => (1 : ℚ) * 2 ^ t) :=
  c9_fetch_retry_behaviour.1 (fun _ => Outcome.err) 2 1 (fun _ _ => trivial)

/-- C9 counterexample: a `304 Not Modified` response is **non-2xx**, yet
`get_response` returns it immediately — no retry, no sleep — because
`raise_for_status` only raises for 4xx/5xx.  The claim's "retries … on
non-2xx status" is false at this input. -/
theorem c9_non2xx_no_retry_counterexample :
    run_fetch (fun _ => Outcome.resp 304 "cached") 3 1 =
      (Except.ok (304, "cached"), []) ∧ ¬(200 ≤ 304 ∧ 304 < 300) := by
  exact ⟨rfl, by omega⟩
